import Mathlib

/-!
Verification of the tree state engine of the dnd-file-tree repository.

The embedding models:
  * the raw tree data (`TTreeNode` from src/types, as `RawTree`),
  * the augmented/internal nodes (`InternalTreeNode` from tree/types; the
    parent back-reference is represented by the list of ancestor subtrees,
    nearest first, together with the depth),
  * the flattener `useSelectableItems`,
  * the utilities `hasAncestor`, `getChildIndex`, `findNodeById`,
  * the zustand store state and its actions (`setCollapsed`, `clearDragState`),
  * the click handler of `TreeNode` (plain / ctrl-meta / shift range selection),
  * the drag handlers `handleDragStart`, `handleDragMove`, `handleDragEnd`,
    `handleDragCancel` of the `Tree` component.

Geometry (bounding rectangles, the drop ratio) is modelled over `Rat`.
-/

namespace DndTree

/-- The `type` field of a tree node: `"directory"` or `"file"`. -/
inductive NodeKind where
  | directory
  | file
deriving DecidableEq, Repr

/-- The identifying payload of a raw node (`id` and `type`; the display name
is irrelevant to the state engine). -/
structure Item where
  id : String
  kind : NodeKind
deriving DecidableEq, Repr

/-- A raw tree node (`TTreeNode`): an item together with its ordered children.
A missing `children` field of the source is modelled as the empty list (the
internal-tree builder treats `undefined` and `[]` identically). -/
inductive RawTree where
  | node (item : Item) (children : List RawTree)
deriving Repr

/-- The `item` data of a raw node. -/
def RawTree.item : RawTree → Item
  | .node it _ => it

/-- The children list of a raw node. -/
def RawTree.children : RawTree → List RawTree
  | .node _ cs => cs

/-- The zustand `collapsed` record: a string-keyed record of booleans.
Modelled as an association list (JS object keys are unique; the model's
operations preserve key uniqueness and lookups take the first match). -/
abbrev CollapseMap := List (String × Bool)

/-- `collapsed[id] ?? false`: look a node id up in the collapse record,
defaulting to `false` (expanded) when the key is absent. -/
def lookupCollapsed (m : CollapseMap) (id : String) : Bool :=
  match m.find? (fun p => p.1 == id) with
  | some p => p.2
  | none => false

/-- The store action `setCollapsed(id, collapsed)`: the JS record spread
`{ ...state.collapsed, [id]: collapsed }` keeps an existing key in place with
the new value and appends a missing key. -/
def setCollapsed (m : CollapseMap) (id : String) (v : Bool) : CollapseMap :=
  if m.any (fun p => p.1 == id) then
    m.map (fun p => if p.1 == id then (p.1, v) else p)
  else
    m ++ [(id, v)]

/-- An `InternalTreeNode`: the subtree rooted at the node, the subtrees of its
ancestors (nearest first; empty for the synthetic root), and its depth.  The
source's `parent` back-reference is recovered from the ancestor list. -/
structure INode where
  subtree : RawTree
  ancestors : List RawTree
  depth : Nat
deriving Repr

/-- The `item` of an internal node. -/
def INode.item (n : INode) : Item := n.subtree.item

/-- The children of an internal node (the source's `children ?? []`). -/
def INode.childList (n : INode) : List RawTree := n.subtree.children

/-- The `parent` back-reference of an internal node (`null` for the root). -/
def INode.parent (n : INode) : Option INode :=
  match n.ancestors with
  | [] => none
  | p :: rest => some ⟨p, rest, n.depth - 1⟩

/-- `hasAncestor(node, ancestorId)` from tree/utils: walk up the parent chain
starting at the node itself and report whether any node on it has the id. -/
def hasAncestor (n : INode) (ancestorId : String) : Bool :=
  n.item.id == ancestorId || n.ancestors.any (fun a => a.item.id == ancestorId)

/-- `getChildIndex(node)` from tree/utils: the position of the node inside its
parent's children (0 for the root or when the lookup fails). -/
def getChildIndex (n : INode) : Nat :=
  match n.ancestors with
  | [] => 0
  | p :: _ =>
    match p.children.findIdx? (fun c => c.item.id == n.item.id) with
    | some i => i
    | none => 0

mutual

/-- `findNodeById(root, id)` from tree/utils: depth-first search for the node
with the given id, returned with its ancestor chain and depth. -/
def findINode (t : RawTree) (anc : List RawTree) (depth : Nat) (id : String) :
    Option INode :=
  match t with
  | .node it cs =>
    if it.id == id then some ⟨.node it cs, anc, depth⟩
    else findINodeList cs (.node it cs :: anc) (depth + 1) id

/-- Depth-first search over a children list, first hit wins. -/
def findINodeList (ts : List RawTree) (anc : List RawTree) (depth : Nat)
    (id : String) : Option INode :=
  match ts with
  | [] => none
  | t :: rest =>
    match findINode t anc depth id with
    | some n => some n
    | none => findINodeList rest anc depth id

end

/-- A `SelectableTreeNode`: a visible internal node tagged with its flat
index. -/
structure SelEntry where
  node : INode
  index : Nat
deriving Repr

mutual

/-- The recursive `walk` of `useSelectableItems`: push the node (unless it is
the depth-0 root) with the running counter, then recurse into the children
when the node is the root or not collapsed.  Returns the pushed entries and
the updated counter. -/
def walk (collapsed : CollapseMap) (t : RawTree) (anc : List RawTree)
    (depth : Nat) (idx : Nat) : List SelEntry × Nat :=
  match t with
  | .node it cs =>
    let pushed : List SelEntry :=
      if depth > 0 then [⟨⟨.node it cs, anc, depth⟩, idx⟩] else []
    let idx1 := if depth > 0 then idx + 1 else idx
    let isCollapsed := lookupCollapsed collapsed it.id
    if depth == 0 || !isCollapsed then
      let r := walkChildren collapsed cs (.node it cs :: anc) (depth + 1) idx1
      (pushed ++ r.1, r.2)
    else
      (pushed, idx1)

/-- `walk` over a children list, threading the counter left to right. -/
def walkChildren (collapsed : CollapseMap) (ts : List RawTree)
    (anc : List RawTree) (depth : Nat) (idx : Nat) : List SelEntry × Nat :=
  match ts with
  | [] => ([], idx)
  | t :: rest =>
    let r1 := walk collapsed t anc depth idx
    let r2 := walkChildren collapsed rest anc depth r1.2
    (r1.1 ++ r2.1, r2.2)

end

/-- `useSelectableItems(root, collapsed)`: flatten the internal tree starting
at the root (depth 0, no ancestors, counter 0). -/
def useSelectableItems (root : RawTree) (collapsed : CollapseMap) :
    List SelEntry :=
  (walk collapsed root [] 0 0).1

mutual

/-- Modelled from the spec's flatten-correctness sentence: the depth-first
pre-order list of nodes whose entire ancestor chain is uncollapsed — a node
is listed before its children, and its children are listed exactly when the
node is not collapsed.  The synthetic root is excluded by starting at the
root's children (`visibleSpec`). -/
def visibleSpecNode (collapsed : CollapseMap) (t : RawTree) : List Item :=
  match t with
  | .node it cs =>
    it ::
      (if lookupCollapsed collapsed it.id then []
       else visibleSpecList collapsed cs)

/-- Spec-side pre-order visibility over a children list. -/
def visibleSpecList (collapsed : CollapseMap) (ts : List RawTree) :
    List Item :=
  match ts with
  | [] => []
  | t :: rest => visibleSpecNode collapsed t ++ visibleSpecList collapsed rest

end

/-- Spec-side visible sequence of a whole tree: the root is excluded, its
children are always traversed. -/
def visibleSpec (root : RawTree) (collapsed : CollapseMap) : List Item :=
  visibleSpecList collapsed root.children

/-- The `dropIntent` variant: `"above" | "below" | "inside"`. -/
inductive DropIntent where
  | above
  | below
  | inside
deriving DecidableEq, Repr

/-- The store's `HoveredParent` record (tree/types): the structural drop
target, all fields nullable. -/
structure HoveredParent where
  parentId : Option String
  parentDepth : Option Nat
  index : Option Nat
  childIndex : Option Nat
  dropIntent : Option DropIntent
deriving DecidableEq, Repr

/-- The store's `initialHoveredParent`: every field null. -/
def initialHoveredParent : HoveredParent :=
  ⟨none, none, none, none, none⟩

/-- The zustand tree store state. -/
structure TreeState where
  selectedIds : List String
  anchorId : Option String
  collapsed : CollapseMap
  draggingIds : List String
  hoveredParent : HoveredParent
deriving Repr

/-- The store action `clearDragState`: reset `draggingIds` and
`hoveredParent` to their initial values. -/
def clearDragState (s : TreeState) : TreeState :=
  { s with draggingIds := [], hoveredParent := initialHoveredParent }

/-- JS truthiness of a nullable string (`null` and `""` are falsy). -/
def strTruthy : Option String → Bool
  | some a => !(a == "")
  | none => false

/-- The plain-click tail of `TreeNode.handleClick`: select only the clicked
item and make it the anchor. -/
def plainClick (s : TreeState) (id : String) : TreeState :=
  { s with selectedIds := [id], anchorId := some id }

/-- `TreeNode.handleClick`: shift-click range selection from the anchor when
both ends are found in the flat sequence; ctrl/meta-click toggles membership;
otherwise (including a shift-click whose anchor or target is not found, which
falls through) a plain click. -/
def handleClick (items : List SelEntry) (s : TreeState) (clickedId : String)
    (shiftKey metaKey ctrlKey : Bool) : TreeState :=
  let shiftStep : Option TreeState :=
    if shiftKey && strTruthy s.anchorId then
      let anchorIndex :=
        items.findIdx? (fun e => e.node.item.id == s.anchorId.getD "")
      let clickIndex := items.findIdx? (fun e => e.node.item.id == clickedId)
      match anchorIndex, clickIndex with
      | some ai, some ci =>
        let start := min ai ci
        let stop := max ai ci
        let rangeIds :=
          ((items.drop start).take (stop + 1 - start)).map
            (fun e => e.node.item.id)
        some { s with selectedIds := rangeIds }
      | _, _ => none
    else none
  match shiftStep with
  | some s' => s'
  | none =>
    if metaKey || ctrlKey then
      if clickedId ∈ s.selectedIds then
        { s with selectedIds := s.selectedIds.filter (fun id => id ≠ clickedId) }
      else
        { s with selectedIds := s.selectedIds ++ [clickedId] }
    else
      plainClick s clickedId

/-- `Tree.handleDragStart`: dragging a selected item drags the whole
selection; dragging an unselected item reselects and drags just it. -/
def handleDragStart (s : TreeState) (activeId : String) : TreeState :=
  if activeId ∈ s.selectedIds then
    { s with draggingIds := s.selectedIds }
  else
    { s with
        draggingIds := [activeId], selectedIds := [activeId],
        anchorId := some activeId }

/-- A bounding rectangle (only the vertical extent matters to the engine). -/
structure Rect where
  top : Rat
  height : Rat
deriving Repr

/-- The droppable currently under the pointer: one of the two synthetic catch
zones, or a tree node (with its rectangle). -/
inductive OverTarget where
  | catchStart
  | catchEnd
  | node (id : String) (rect : Rect)
deriving Repr

/-- A `DragMoveEvent`: the hovered droppable (if any) and the dragged item's
current translated rectangle (if any). -/
structure DragMoveEvent where
  over : Option OverTarget
  activeRect : Option Rect
deriving Repr

/-- The structural target resolved by the zone branch of
`Tree.handleDragMove` (lines computing `targetParent`, `targetChildIndex`,
`dropIntent` and `flatIndex`), before cycle validation. -/
structure ResolvedTarget where
  targetParent : Option INode
  targetChildIndex : Nat
  dropIntent : DropIntent
  flatIndex : Nat
deriving Repr

/-- The zone branch of `Tree.handleDragMove`: a file splits 50/50 into
above/below; a directory has an above zone under ratio 1/4, a below zone over
ratio 3/4 only when not expanded, and otherwise resolves to inside. -/
def resolveTarget (collapsed : CollapseMap) (overItem : SelEntry)
    (ratio : Rat) : ResolvedTarget :=
  let overNode := overItem.node
  let isOverDirectory := overNode.item.kind == NodeKind.directory
  let isOverCollapsed := lookupCollapsed collapsed overNode.item.id
  let isOverExpanded := isOverDirectory && !isOverCollapsed
  let hasChildren := !overNode.childList.isEmpty
  if !isOverDirectory then
    if ratio < 1/2 then
      ⟨overNode.parent, getChildIndex overNode, .above, overItem.index⟩
    else
      ⟨overNode.parent, getChildIndex overNode + 1, .below, overItem.index + 1⟩
  else
    if ratio < 1/4 then
      ⟨overNode.parent, getChildIndex overNode, .above, overItem.index⟩
    else if ratio > 3/4 && !isOverExpanded then
      ⟨overNode.parent, getChildIndex overNode + 1, .below, overItem.index + 1⟩
    else
      ⟨some overNode, 0, .inside,
        if isOverExpanded && hasChildren then overItem.index + 1
        else overItem.index⟩

/-- The outcome of one `handleDragMove` call: either no store write at all
(an early `return` after the catch-zone branches), or a write of a new
`hoveredParent` (paired, for the statements below, with the internal node the
written `parentId` was taken from). -/
inductive MoveOutcome where
  | keep
  | set (hp : HoveredParent) (parentNode : Option INode)
deriving Repr

/-- `Tree.handleDragMove`, resolved to its outcome: a null hover resets the
target; a catch zone targets the root at the start or end; otherwise the
hovered entry is looked up in the flat sequence, the drop ratio is taken from
the dragged rectangle's center inside the hovered rectangle, the zone branch
resolves a target, and the cycle validation discards the update when any
dragged id lies on the prospective parent's ancestor-or-self chain. -/
def handleDragMoveOutcome (root : RawTree) (collapsed : CollapseMap)
    (draggingIds : List String) (ev : DragMoveEvent) : MoveOutcome :=
  match ev.over with
  | none => .set initialHoveredParent none
  | some .catchStart =>
    .set ⟨some root.item.id, some 0, some 0, some 0, some .above⟩
      (some ⟨root, [], 0⟩)
  | some .catchEnd =>
    let lastIndex := (useSelectableItems root collapsed).length
    let rootChildCount := root.children.length
    .set ⟨some root.item.id, some 0, some lastIndex, some rootChildCount,
        some .below⟩
      (some ⟨root, [], 0⟩)
  | some (.node overId overRect) =>
    match (useSelectableItems root collapsed).find?
        (fun s => s.node.item.id == overId) with
    | none => .keep
    | some overItem =>
      match ev.activeRect with
      | none => .keep
      | some activeRect =>
        let activeCenter := activeRect.top + activeRect.height / 2
        let relativeY := activeCenter - overRect.top
        let ratio := relativeY / overRect.height
        let rt := resolveTarget collapsed overItem ratio
        let invalid :=
          match rt.targetParent with
          | some tp => draggingIds.any (fun d => hasAncestor tp d)
          | none => false
        if invalid then .keep
        else
          .set
            ⟨rt.targetParent.map (fun n => n.item.id),
             rt.targetParent.map (fun n => n.depth),
             some rt.flatIndex, some rt.targetChildIndex,
             some rt.dropIntent⟩
            rt.targetParent

/-- `Tree.handleDragMove` as a state transformer: apply the outcome to the
stored `hoveredParent`. -/
def handleDragMove (root : RawTree) (s : TreeState) (ev : DragMoveEvent) :
    TreeState :=
  match handleDragMoveOutcome root s.collapsed s.draggingIds ev with
  | .keep => s
  | .set hp _ => { s with hoveredParent := hp }

/-- The `DragEndPayload` emitted to the data owner.  The `items`, `parent`
and `children` fields hold the raw nodes (the `item` field of the internal
nodes, i.e. whole raw subtrees). -/
structure DragEndPayload where
  items : List RawTree
  parent : RawTree
  children : List RawTree
  insertAt : Int
deriving Repr

/-- A `DragEndEvent`, reduced to what the handler reads: whether `event.over`
was non-null at release time. -/
structure DragEndEvent where
  overPresent : Bool
deriving Repr

/-- The removal loop of `Tree.handleDragEnd`: for each valid dragged node in
order, find it in the (running) children copy by id; when present, splice it
out and decrement the insertion index when its position was strictly before
the index. -/
def removeAdjustLoop (cs : List RawTree) (insertAt : Int)
    (ns : List INode) : List RawTree × Int :=
  match ns with
  | [] => (cs, insertAt)
  | n :: rest =>
    match cs.findIdx? (fun c => c.item.id == n.item.id) with
    | some i =>
      removeAdjustLoop (cs.eraseIdx i)
        (if (i : Int) < insertAt then insertAt - 1 else insertAt) rest
    | none => removeAdjustLoop cs insertAt rest

/-- The payload part of `Tree.handleDragEnd`: validate the drop target
(`event.over` non-null, a truthy `parentId`, a non-null `childIndex`),
resolve the target parent and the dragged nodes, discard dragged nodes that
are the parent or one of its ancestors, and build the adjusted children copy
and insertion index. -/
def dragEndPayload (root : RawTree) (s : TreeState) (ev : DragEndEvent) :
    Option DragEndPayload :=
  let hoveredParent := s.hoveredParent
  if !ev.overPresent then none
  else
    match hoveredParent.parentId, hoveredParent.childIndex with
    | some pid, some childIndex =>
      if pid == "" then none
      else
        match findINode root [] 0 pid with
        | none => none
        | some targetParent =>
          let items := useSelectableItems root s.collapsed
          let draggedNodes := s.draggingIds.filterMap
            (fun id =>
              (items.find? (fun e => e.node.item.id == id)).map
                (fun e => e.node))
          if draggedNodes.isEmpty then none
          else
            let validNodes := draggedNodes.filter
              (fun n =>
                !(n.item.id == targetParent.item.id) &&
                !hasAncestor targetParent n.item.id)
            if validNodes.isEmpty then none
            else
              let res :=
                removeAdjustLoop targetParent.childList (childIndex : Int)
                  validNodes
              some
                ⟨validNodes.map (fun n => n.subtree), targetParent.subtree,
                 res.1, res.2⟩
    | _, _ => none

/-- `Tree.handleDragEnd`: the drag state is cleared first, before any of the
early returns, and the payload (when the drop is valid) is emitted to the
owner. -/
def handleDragEnd (root : RawTree) (s : TreeState) (ev : DragEndEvent) :
    TreeState × Option DragEndPayload :=
  (clearDragState s, dragEndPayload root s ev)

/-- `Tree.handleDragCancel`: clear the drag state. -/
def handleDragCancel (s : TreeState) : TreeState :=
  clearDragState s

/-! Helper lemmas about the flattener. -/

@[simp] theorem RawTree.item_node (it : Item) (cs : List RawTree) :
    (RawTree.node it cs).item = it := rfl

@[simp] theorem RawTree.children_node (it : Item) (cs : List RawTree) :
    (RawTree.node it cs).children = cs := rfl

@[simp] theorem INode.item_mk (t : RawTree) (anc : List RawTree) (d : Nat) :
    (⟨t, anc, d⟩ : INode).item = t.item := rfl

@[simp] theorem INode.childList_mk (t : RawTree) (anc : List RawTree)
    (d : Nat) : (⟨t, anc, d⟩ : INode).childList = t.children := rfl

mutual

/-- At positive depth, the walk of a subtree produces exactly the spec-side
visible items of that subtree, with flat indices counting on from the entry
counter, and returns the counter advanced by the number of produced items. -/
theorem walk_visibleSpec (c : CollapseMap) (t : RawTree) (anc : List RawTree)
    (depth idx : Nat) (h : depth ≠ 0) :
    (walk c t anc depth idx).1.map (fun e => e.node.item) =
        visibleSpecNode c t ∧
    (walk c t anc depth idx).1.map (fun e => e.index) =
        List.range' idx (visibleSpecNode c t).length ∧
    (walk c t anc depth idx).2 = idx + (visibleSpecNode c t).length := by
  match t with
  | .node it cs =>
    obtain ⟨d, rfl⟩ : ∃ d, depth = d + 1 := ⟨depth - 1, by omega⟩
    rw [walk, visibleSpecNode]
    cases hcol : lookupCollapsed c it.id with
    | true =>
      simp [hcol]
    | false =>
      have ih := walkChildren_visibleSpec c cs (.node it cs :: anc) (d + 1 + 1)
        (idx + 1) (by omega)
      refine ⟨?_, ?_, ?_⟩
      · simp [hcol, ih.1, Nat.succ_pos]
      · simp [hcol, ih.2.1, List.range'_succ, Nat.succ_pos]
      · simp [hcol, ih.2.2, Nat.succ_pos]
        omega

/-- At positive depth, walking a children list concatenates the walks of the
members, threading the counter. -/
theorem walkChildren_visibleSpec (c : CollapseMap) (ts : List RawTree)
    (anc : List RawTree) (depth idx : Nat) (h : depth ≠ 0) :
    (walkChildren c ts anc depth idx).1.map (fun e => e.node.item) =
        visibleSpecList c ts ∧
    (walkChildren c ts anc depth idx).1.map (fun e => e.index) =
        List.range' idx (visibleSpecList c ts).length ∧
    (walkChildren c ts anc depth idx).2 =
        idx + (visibleSpecList c ts).length := by
  match ts with
  | [] => simp [walkChildren, visibleSpecList]
  | t :: rest =>
    have ih1 := walk_visibleSpec c t anc depth idx h
    have ih2 := walkChildren_visibleSpec c rest anc depth
      (walk c t anc depth idx).2 h
    rw [walkChildren, visibleSpecList]
    rw [ih1.2.2] at ih2 ⊢
    refine ⟨?_, ?_, ?_⟩
    · simp only [List.map_append, ih1.1, ih2.1]
    · simp only [List.map_append, ih1.2.1, ih2.2.1, List.length_append]
      rw [List.range'_append_1, Nat.add_comm (visibleSpecList c rest).length]
    · simp only [List.length_append, ih2.2.2]
      omega

end

/-- The flattener at the root: depth 0 skips the root and always recurses
into the root's children with depth 1 and counter 0. -/
theorem useSelectableItems_eq_walkChildren (it : Item) (cs : List RawTree)
    (c : CollapseMap) :
    useSelectableItems (.node it cs) c =
      (walkChildren c cs [.node it cs] 1 0).1 := by
  rw [useSelectableItems, walk]
  simp

/-- The flattened items are the spec-side visible items. -/
theorem useSelectableItems_map_item (root : RawTree) (c : CollapseMap) :
    (useSelectableItems root c).map (fun e => e.node.item) =
      visibleSpec root c := by
  match root with
  | .node it cs =>
    rw [useSelectableItems_eq_walkChildren, visibleSpec]
    exact (walkChildren_visibleSpec c cs [.node it cs] 1 0 (by omega)).1

/-- The flat indices are `0..n-1` in order. -/
theorem useSelectableItems_map_index (root : RawTree) (c : CollapseMap) :
    (useSelectableItems root c).map (fun e => e.index) =
      List.range (useSelectableItems root c).length := by
  match root with
  | .node it cs =>
    have h := (walkChildren_visibleSpec c cs [.node it cs] 1 0 (by omega))
    have hlen : (useSelectableItems (.node it cs) c).length =
        (visibleSpecList c cs).length := by
      have := congrArg List.length (useSelectableItems_map_item (.node it cs) c)
      simpa [visibleSpec] using this
    rw [useSelectableItems_eq_walkChildren, List.range_eq_range']
    rw [useSelectableItems_eq_walkChildren] at hlen
    rw [hlen]
    exact h.2.1

/-- Each flat entry's stored index equals its position in the flat list. -/
theorem useSelectableItems_index_pos (root : RawTree) (c : CollapseMap)
    (i : Nat) (h : i < (useSelectableItems root c).length) :
    ((useSelectableItems root c).get ⟨i, h⟩).index = i := by
  have hm := useSelectableItems_map_index root c
  have h1 : i < ((useSelectableItems root c).map (fun e => e.index)).length := by
    simpa using h
  have h2 := List.getElem_of_eq hm h1
  simpa using h2

/-! Helper lemmas about the collapse map. -/

/-- The in-place replacement map of `setCollapsed` does not change lookups of
other keys. -/
theorem lookup_map_replace_ne (m : CollapseMap) (id : String) (v : Bool)
    (x : String) (hx : x ≠ id) :
    lookupCollapsed (m.map (fun p => if p.1 == id then (p.1, v) else p)) x =
      lookupCollapsed m x := by
  induction m with
  | nil => rfl
  | cons hd tl ih =>
    by_cases hk : hd.1 = x
    · simp [lookupCollapsed, hk, hx]
    · by_cases hki : hd.1 = id
      · have hxi : id ≠ x := fun h => hx h.symm
        simp only [lookupCollapsed, beq_iff_eq] at ih
        simp [lookupCollapsed, hki, hxi, ih, -List.find?_map]
      · simp only [lookupCollapsed, beq_iff_eq] at ih
        simp [lookupCollapsed, hki, hk, ih, -List.find?_map]

/-- After the in-place replacement map of `setCollapsed` on a map containing
the key, looking the key up yields the written value. -/
theorem lookup_map_replace_self (m : CollapseMap) (id : String) (v : Bool)
    (hp : m.any (fun p => p.1 == id) = true) :
    lookupCollapsed (m.map (fun p => if p.1 == id then (p.1, v) else p)) id =
      v := by
  induction m with
  | nil => simp at hp
  | cons hd tl ih =>
    by_cases hki : hd.1 = id
    · simp [lookupCollapsed, hki]
    · have hp' : tl.any (fun p => p.1 == id) = true := by
        simpa [List.any_cons, hki] using hp
      simp only [lookupCollapsed, beq_iff_eq] at ih
      simp [lookupCollapsed, hki, ih hp', -List.find?_map]

/-- Looking up a key other than the written one is unchanged by
`setCollapsed`. -/
theorem lookupCollapsed_setCollapsed_ne (m : CollapseMap) (id : String)
    (v : Bool) (x : String) (hx : x ≠ id) :
    lookupCollapsed (setCollapsed m id v) x = lookupCollapsed m x := by
  rw [setCollapsed]
  by_cases hp : m.any (fun p => p.1 == id)
  · rw [if_pos hp]
    exact lookup_map_replace_ne m id v x hx
  · rw [if_neg hp]
    rw [lookupCollapsed, lookupCollapsed, List.find?_append]
    have h1 : (([(id, v)] : CollapseMap)).find? (fun p => p.1 == x) = none := by
      refine List.find?_eq_none.mpr ?_
      intro p hmem
      simp only [List.mem_singleton] at hmem
      subst hmem
      simp only [beq_iff_eq]
      exact fun h => hx h.symm
    rw [h1]
    cases hm : m.find? (fun p => p.1 == x) with
    | some p => rfl
    | none => rfl

/-- Looking up the written key after `setCollapsed` yields the written
value. -/
theorem lookupCollapsed_setCollapsed_self (m : CollapseMap) (id : String)
    (v : Bool) :
    lookupCollapsed (setCollapsed m id v) id = v := by
  rw [setCollapsed]
  by_cases hp : m.any (fun p => p.1 == id)
  · rw [if_pos hp]
    exact lookup_map_replace_self m id v hp
  · rw [if_neg hp]
    rw [lookupCollapsed, List.find?_append]
    have hm : m.find? (fun p => p.1 == id) = none := by
      refine List.find?_eq_none.mpr ?_
      intro p hmem hbeq
      exact hp (List.any_eq_true.mpr ⟨p, hmem, hbeq⟩)
    rw [hm]
    simp [List.find?_cons]

/-- A map with no entry for a key is unchanged by the replace-in-place map of
`setCollapsed`. -/
theorem map_set_of_not_any (m : CollapseMap) (id : String) (v : Bool)
    (hp : m.any (fun p => p.1 == id) = false) :
    m.map (fun p => if p.1 == id then (p.1, v) else p) = m := by
  induction m with
  | nil => rfl
  | cons hd tl ih =>
    simp only [List.any_cons, Bool.or_eq_false_iff] at hp
    have h1 : ¬hd.1 = id := by simpa using hp.1
    have h2 := ih hp.2
    simp only [beq_iff_eq] at h2
    simp [h1, h2]

/-- `setCollapsed` leaves a key it has written present in the map. -/
theorem any_setCollapsed (m : CollapseMap) (id : String) (v : Bool) :
    (setCollapsed m id v).any (fun p => p.1 == id) = true := by
  rw [setCollapsed]
  by_cases hp : m.any (fun p => p.1 == id)
  · rw [if_pos hp]
    rcases List.any_eq_true.mp hp with ⟨p, hmem, hbeq⟩
    refine List.any_eq_true.mpr ⟨if p.1 == id then (p.1, v) else p, ?_, ?_⟩
    · exact List.mem_map_of_mem _ hmem
    · simp [hbeq]
  · rw [if_neg hp]
    refine List.any_eq_true.mpr ⟨(id, v), ?_, ?_⟩
    · simp
    · simp

/-- Writing the same value twice with `setCollapsed` is the same as writing
it once (literally, as a record). -/
theorem setCollapsed_idem (m : CollapseMap) (id : String) (v : Bool) :
    setCollapsed (setCollapsed m id v) id v = setCollapsed m id v := by
  have hany := any_setCollapsed m id v
  conv_lhs => rw [setCollapsed]
  rw [if_pos hany]
  rw [setCollapsed]
  by_cases hp : m.any (fun p => p.1 == id)
  · rw [if_pos hp, List.map_map]
    refine List.map_congr_left ?_
    intro p _
    by_cases hk : p.1 = id <;> simp [hk]
  · rw [if_neg hp]
    rw [List.map_append,
      map_set_of_not_any m id v (Bool.not_eq_true _ ▸ eq_false_of_ne_true hp)]
    simp

/-! Sample data used by witnesses: the spec's end-to-end scenario tree
`root -> [A(dir,[A1,A2]), B(file)]`. -/

/-- Sample leaf `A1`. -/
def sampleA1 : RawTree := .node ⟨"A1", .file⟩ []

/-- Sample leaf `A2`. -/
def sampleA2 : RawTree := .node ⟨"A2", .file⟩ []

/-- Sample directory `A` with children `A1`, `A2`. -/
def sampleA : RawTree := .node ⟨"A", .directory⟩ [sampleA1, sampleA2]

/-- Sample leaf `B`. -/
def sampleB : RawTree := .node ⟨"B", .file⟩ []

/-- Sample root with children `A`, `B`. -/
def sampleRoot : RawTree := .node ⟨"root", .directory⟩ [sampleA, sampleB]

/-! The claims. -/

/-- C1: for every tree and every collapse map, the flattened sequence
produced by the flattener (`useSelectableItems`) contains exactly the nodes
whose entire ancestor chain is uncollapsed (the synthetic root excluded), in
depth-first pre-order — that is, its items equal the spec-side pre-order
`visibleSpec` — and the index values assigned to its entries are exactly
`0..n-1`, strictly increasing with no gaps or repeats. -/
theorem C1_flatten_correct (root : RawTree) (c : CollapseMap) :
    (useSelectableItems root c).map (fun e => e.node.item) =
        visibleSpec root c ∧
    (useSelectableItems root c).map (fun e => e.index) =
        List.range (useSelectableItems root c).length :=
  ⟨useSelectableItems_map_item root c, useSelectableItems_map_index root c⟩

/-- C2: for every drag-move over a container (directory) entry with position
ratio `r`: `r < 1/4` resolves to drop-above with the hovered node's parent,
its sibling position and its flat index; `r > 3/4` on a collapsed (not
expanded) container resolves to drop-below with sibling position plus one and
flat index plus one; otherwise (middle band, or bottom band of an expanded
container) it resolves to drop-inside with the hovered container itself as
parent, child index `0`, and flat index plus one exactly when the container
is expanded with at least one child. -/
theorem C2_container_zones (c : CollapseMap) (e : SelEntry) (r : Rat)
    (hdir : e.node.item.kind = NodeKind.directory) :
    resolveTarget c e r =
      if r < 1/4 then
        ⟨e.node.parent, getChildIndex e.node, .above, e.index⟩
      else if r > 3/4 ∧ lookupCollapsed c e.node.item.id = true then
        ⟨e.node.parent, getChildIndex e.node + 1, .below, e.index + 1⟩
      else
        ⟨some e.node, 0, .inside,
          if lookupCollapsed c e.node.item.id = false ∧
              e.node.childList.isEmpty = false
          then e.index + 1 else e.index⟩ := by
  rw [resolveTarget]
  simp only [one_div] at *
  by_cases h1 : r < (4 : Rat)⁻¹
  · simp [hdir, h1]
  · by_cases h2 : r > 3/4
    · cases hcol : lookupCollapsed c e.node.item.id with
      | true => simp [hdir, h1, h2, hcol]
      | false =>
        cases hch : e.node.childList.isEmpty with
        | true => simp [hdir, h1, h2, hcol, hch]
        | false => simp [hdir, h1, h2, hcol, hch]
    · cases hcol : lookupCollapsed c e.node.item.id with
      | true => simp [hdir, h1, h2, hcol]
      | false =>
        cases hch : e.node.childList.isEmpty with
        | true => simp [hdir, h1, h2, hcol, hch]
        | false => simp [hdir, h1, h2, hcol, hch]

/-- Witness for C2: the sample directory `A` (expanded, two children) hovered
at ratio `1/2` resolves to drop-inside at flat index `1`. -/
theorem C2_container_zones_witness :
    (⟨⟨sampleA, [sampleRoot], 1⟩, 0⟩ : SelEntry).node.item.kind =
        NodeKind.directory ∧
    resolveTarget [] ⟨⟨sampleA, [sampleRoot], 1⟩, 0⟩ (1/2) =
      ⟨some ⟨sampleA, [sampleRoot], 1⟩, 0, .inside, 1⟩ := by
  refine ⟨rfl, ?_⟩
  rw [C2_container_zones [] ⟨⟨sampleA, [sampleRoot], 1⟩, 0⟩ (1/2) rfl]
  norm_num [sampleA, sampleA1, sampleA2, lookupCollapsed]

/-- C7: both termination paths of a drag gesture — completion (`handleDragEnd`,
whether or not a payload is emitted) and explicit cancellation
(`handleDragCancel`) — leave the drag state at its default value:
`draggingIds` is empty and `hoveredParent` is the all-null default. -/
theorem C7_drag_cleanup (root : RawTree) (s : TreeState) (ev : DragEndEvent) :
    (handleDragEnd root s ev).1.draggingIds = [] ∧
    (handleDragEnd root s ev).1.hoveredParent = initialHoveredParent ∧
    (handleDragCancel s).draggingIds = [] ∧
    (handleDragCancel s).hoveredParent = initialHoveredParent :=
  ⟨rfl, rfl, rfl, rfl⟩

/-- C8: firing the auto-expand timer's action (`setCollapsed(id, false)`) on
a container that is already expanded leaves the collapse map semantically
unchanged — every lookup, the container's own included, is as before — and
firing it twice produces the same map as firing it once. -/
theorem C8_autoexpand_idempotent (m : CollapseMap) (id : String)
    (h : lookupCollapsed m id = false) :
    (∀ x, lookupCollapsed (setCollapsed m id false) x = lookupCollapsed m x) ∧
    setCollapsed (setCollapsed m id false) id false =
      setCollapsed m id false := by
  refine ⟨?_, setCollapsed_idem m id false⟩
  intro x
  by_cases hx : x = id
  · subst hx
    rw [lookupCollapsed_setCollapsed_self m x false, h]
  · exact lookupCollapsed_setCollapsed_ne m id false x hx

/-- Witness for C8: expanding the absent key `"a"` in the map `[("b", true)]`
changes no lookup and firing twice equals firing once. -/
theorem C8_autoexpand_idempotent_witness :
    lookupCollapsed [("b", true)] "a" = false ∧
    lookupCollapsed (setCollapsed [("b", true)] "a" false) "b" =
      lookupCollapsed [("b", true)] "b" ∧
    setCollapsed (setCollapsed [("b", true)] "a" false) "a" false =
      setCollapsed [("b", true)] "a" false :=
  ⟨by decide,
   (C8_autoexpand_idempotent [("b", true)] "a" (by decide)).1 "b",
   (C8_autoexpand_idempotent [("b", true)] "a" (by decide)).2⟩

/-- C9: at drag start with active id `a`: if `a` is already in `selectedIds`
then `draggingIds` becomes the current `selectedIds` and the selection and
anchor (and the rest of the state) are unchanged; otherwise `draggingIds` and
`selectedIds` both become exactly `[a]` and the anchor becomes `a`. -/
theorem C9_dragStart (s : TreeState) (a : String) :
    (a ∈ s.selectedIds →
      (handleDragStart s a).draggingIds = s.selectedIds ∧
      (handleDragStart s a).selectedIds = s.selectedIds ∧
      (handleDragStart s a).anchorId = s.anchorId) ∧
    (a ∉ s.selectedIds →
      (handleDragStart s a).draggingIds = [a] ∧
      (handleDragStart s a).selectedIds = [a] ∧
      (handleDragStart s a).anchorId = some a) := by
  constructor <;> intro h <;> simp [handleDragStart, h]

/-- A sample selection state with `A` and `B` selected and anchor `A`. -/
def sampleSelState : TreeState :=
  { selectedIds := ["A", "B"], anchorId := some "A", collapsed := [],
    draggingIds := [], hoveredParent := initialHoveredParent }

/-- Witness for C9: dragging the selected `"A"` keeps the selection and drags
all of it; dragging the unselected `"C"` reselects and drags just `"C"`. -/
theorem C9_dragStart_witness :
    ("A" ∈ sampleSelState.selectedIds ∧
      (handleDragStart sampleSelState "A").draggingIds =
        sampleSelState.selectedIds ∧
      (handleDragStart sampleSelState "A").selectedIds =
        sampleSelState.selectedIds ∧
      (handleDragStart sampleSelState "A").anchorId =
        sampleSelState.anchorId) ∧
    ("C" ∉ sampleSelState.selectedIds ∧
      (handleDragStart sampleSelState "C").draggingIds = ["C"] ∧
      (handleDragStart sampleSelState "C").selectedIds = ["C"] ∧
      (handleDragStart sampleSelState "C").anchorId = some "C") :=
  ⟨⟨by decide, (C9_dragStart sampleSelState "A").1 (by decide)⟩,
   ⟨by decide, (C9_dragStart sampleSelState "C").2 (by decide)⟩⟩

/-- Reduction of a shift-click whose anchor and target are both found in the
flat sequence: the selection becomes the inclusive slice between the two
indices, nothing else changes. -/
theorem handleClick_shift_found (items : List SelEntry) (s : TreeState)
    (clickedId A : String) (mk ck : Bool) (ai ci : Nat)
    (hA : s.anchorId = some A) (hAne : A ≠ "")
    (hai : items.findIdx? (fun e => e.node.item.id == A) = some ai)
    (hci : items.findIdx? (fun e => e.node.item.id == clickedId) = some ci) :
    handleClick items s clickedId true mk ck =
      { s with selectedIds :=
          (((items.drop (min ai ci)).take (max ai ci + 1 - min ai ci)).map
            (fun e => e.node.item.id)) } := by
  rw [handleClick]
  simp [strTruthy, hA, hAne, hai, hci]

/-- Membership in the id image of an inclusive index slice of the flat
sequence is membership of an entry whose flat index lies in the interval. -/
theorem mem_slice_map_iff (root : RawTree) (c : CollapseMap) (lo hi : Nat)
    (x : String) :
    (x ∈ (((useSelectableItems root c).drop lo).take (hi + 1 - lo)).map
        (fun e => e.node.item.id)) ↔
    ∃ e ∈ useSelectableItems root c, lo ≤ e.index ∧ e.index ≤ hi ∧
      e.node.item.id = x := by
  constructor
  · intro hx
    rcases List.mem_map.mp hx with ⟨e, he, hid⟩
    rcases List.mem_iff_getElem.mp he with ⟨j, hj, hget⟩
    have hjlen := hj
    simp only [List.length_take, List.length_drop, Nat.lt_min] at hjlen
    have hj2 : lo + j < (useSelectableItems root c).length := by omega
    have hgl : (((useSelectableItems root c).drop lo).take
        (hi + 1 - lo))[j] = (useSelectableItems root c)[lo + j] := by
      simp
    have hidx : e.index = lo + j := by
      rw [← hget, hgl]
      exact useSelectableItems_index_pos root c (lo + j) hj2
    refine ⟨e, ?_, by omega, by omega, hid⟩
    rw [← hget, hgl]
    exact List.getElem_mem _
  · rintro ⟨e, he, hlo, hhi, hid⟩
    rcases List.mem_iff_getElem.mp he with ⟨i, hilen, hget⟩
    have hidx : e.index = i := by
      rw [← hget]
      exact useSelectableItems_index_pos root c i hilen
    refine List.mem_map.mpr ⟨e, ?_, hid⟩
    have hjlen : i - lo < (((useSelectableItems root c).drop lo).take
        (hi + 1 - lo)).length := by
      simp only [List.length_take, List.length_drop, Nat.lt_min]
      omega
    refine List.mem_iff_getElem.mpr ⟨i - lo, hjlen, ?_⟩
    have hsum : lo + (i - lo) = i := by omega
    have hb : lo + (i - lo) < (useSelectableItems root c).length := by omega
    have hgl : (((useSelectableItems root c).drop lo).take
        (hi + 1 - lo))[i - lo] =
        (useSelectableItems root c)[lo + (i - lo)] := by
      simp
    rw [hgl]
    simp only [hsum]
    exact hget

/-- C5: for every flat sequence produced by the flattener and every pair of
ids A, B present in it, a shift-click range selection with anchor A and
target B sets `selectedIds` to exactly the ids of the entries whose flat
index lies in `[min(iA,iB), max(iA,iB)]`, leaves the anchor unchanged, and
swapping the roles of anchor and target yields the same id list. -/
theorem C5_range_select (root : RawTree) (c : CollapseMap) (s1 s2 : TreeState)
    (A B : String) (ai bi : Nat) (mk ck mk2 ck2 : Bool)
    (hA : s1.anchorId = some A) (hAne : A ≠ "")
    (hB : s2.anchorId = some B) (hBne : B ≠ "")
    (hai : (useSelectableItems root c).findIdx?
        (fun e => e.node.item.id == A) = some ai)
    (hbi : (useSelectableItems root c).findIdx?
        (fun e => e.node.item.id == B) = some bi) :
    (handleClick (useSelectableItems root c) s1 B true mk ck).anchorId =
        s1.anchorId ∧
    (∀ x,
      x ∈ (handleClick (useSelectableItems root c) s1 B true mk ck).selectedIds
        ↔ ∃ e ∈ useSelectableItems root c,
            min ai bi ≤ e.index ∧ e.index ≤ max ai bi ∧
            e.node.item.id = x) ∧
    (handleClick (useSelectableItems root c) s1 B true mk ck).selectedIds =
      (handleClick (useSelectableItems root c) s2 A true mk2 ck2).selectedIds
    := by
  have h1 := handleClick_shift_found (useSelectableItems root c) s1 B A mk ck
    ai bi hA hAne hai hbi
  have h2 := handleClick_shift_found (useSelectableItems root c) s2 A B mk2
    ck2 bi ai hB hBne hbi hai
  rw [h1, h2]
  refine ⟨rfl, ?_, ?_⟩
  · intro x
    simpa using mem_slice_map_iff root c (min ai bi) (max ai bi) x
  · simp only [Nat.min_comm bi ai, Nat.max_comm bi ai]

/-- A sample state whose anchor is the visible entry `A1`. -/
def sampleAnchorA1 : TreeState :=
  { selectedIds := ["A1"], anchorId := some "A1", collapsed := [],
    draggingIds := [], hoveredParent := initialHoveredParent }

/-- A sample state whose anchor is the visible entry `B`. -/
def sampleAnchorB : TreeState :=
  { selectedIds := ["B"], anchorId := some "B", collapsed := [],
    draggingIds := [], hoveredParent := initialHoveredParent }

/-- Witness for C5: on the fully expanded sample tree (flat indices `A1 = 1`,
`B = 3`), range-selecting from anchor `A1` to `B` keeps the anchor, its
selection contains `A2` exactly as the interval characterisation says, and
swapping anchor and target yields the same selection list. -/
theorem C5_range_select_witness :
    (handleClick (useSelectableItems sampleRoot []) sampleAnchorA1 "B" true
        false false).anchorId = sampleAnchorA1.anchorId ∧
    ("A2" ∈ (handleClick (useSelectableItems sampleRoot []) sampleAnchorA1 "B"
        true false false).selectedIds ↔
      ∃ e ∈ useSelectableItems sampleRoot [],
        min 1 3 ≤ e.index ∧ e.index ≤ max 1 3 ∧ e.node.item.id = "A2") ∧
    (handleClick (useSelectableItems sampleRoot []) sampleAnchorA1 "B" true
        false false).selectedIds =
      (handleClick (useSelectableItems sampleRoot []) sampleAnchorB "A1" true
        false false).selectedIds := by
  have h := C5_range_select sampleRoot [] sampleAnchorA1 sampleAnchorB "A1"
    "B" 1 3 false false false false rfl (by decide) rfl (by decide)
    (by decide) (by decide)
  exact ⟨h.1, h.2.1 "A2", h.2.2⟩

/-- The stale-anchor state of the spec's end-to-end scenario: `A1` selected
and anchored while its parent `A` is collapsed. -/
def sampleStaleState : TreeState :=
  { selectedIds := ["A1"], anchorId := some "A1", collapsed := [("A", true)],
    draggingIds := [], hoveredParent := initialHoveredParent }

/-- Counterexample to C6 as stated: with anchor `A1` hidden by collapsing
`A`, a shift-click on `B` does not leave the selection state unchanged — the
selection becomes `["B"]` and the anchor moves to `B`. -/
theorem C6_stale_anchor_counterexample :
    (handleClick (useSelectableItems sampleRoot [("A", true)])
          sampleStaleState "B" true false false).selectedIds ≠
        sampleStaleState.selectedIds ∧
    (handleClick (useSelectableItems sampleRoot [("A", true)])
          sampleStaleState "B" true false false).selectedIds = ["B"] ∧
    (handleClick (useSelectableItems sampleRoot [("A", true)])
          sampleStaleState "B" true false false).anchorId = some "B" := by
  refine ⟨?_, ?_, ?_⟩ <;> decide

/-- C6 (amended): for every shift-click whose (non-null, truthy) anchor id or
target id is absent from the current flat sequence, no range update is made
and no error is raised, but the operation is not a no-op: the click falls
through to a plain select, so `selectedIds` becomes exactly the clicked id
and the anchor moves to it (absent ctrl/meta modifiers). -/
theorem C6_stale_anchor_fallthrough (items : List SelEntry) (s : TreeState)
    (clickedId A : String)
    (hA : s.anchorId = some A) (hAne : A ≠ "")
    (habs : items.findIdx? (fun e => e.node.item.id == A) = none ∨
        items.findIdx? (fun e => e.node.item.id == clickedId) = none) :
    handleClick items s clickedId true false false =
      { s with selectedIds := [clickedId], anchorId := some clickedId } := by
  rw [handleClick]
  rcases habs with h | h
  · simp [strTruthy, hA, hAne, h, plainClick]
  · cases hy : items.findIdx? (fun e => e.node.item.id == A) with
    | none => simp [strTruthy, hA, hAne, hy, plainClick]
    | some ai => simp [strTruthy, hA, hAne, hy, h, plainClick]

/-- Witness for the amended C6: in the stale-anchor scenario the anchor `A1`
is absent from the flat sequence and the shift-click on `B` plain-selects
`B`. -/
theorem C6_stale_anchor_fallthrough_witness :
    sampleStaleState.anchorId = some "A1" ∧
    (useSelectableItems sampleRoot [("A", true)]).findIdx?
        (fun e => e.node.item.id == "A1") = none ∧
    handleClick (useSelectableItems sampleRoot [("A", true)]) sampleStaleState
        "B" true false false =
      { sampleStaleState with selectedIds := ["B"], anchorId := some "B" } :=
  ⟨rfl, by decide,
   C6_stale_anchor_fallthrough _ sampleStaleState "B" "A1" rfl (by decide)
     (Or.inl (by decide))⟩

/-- C3: for every drag-move event, (a) on the node path, if any dragged id
lies on the prospective target parent's ancestor-or-self chain the update is
discarded entirely — the state, its stored `hoveredParent` included, is left
exactly as it was, not nulled — and (b) whenever a `hoveredParent` with a
non-null `parentId` is committed, the internal node it names has no dragged
id on its ancestor-or-self chain, so a committed non-null target never names
a dragged node or a descendant of a dragged node as parent.  (The root is
never draggable, hence the reachable-state hypothesis that its id is not
among `draggingIds`.) -/
theorem C3_cycle_validation (root : RawTree) (s : TreeState)
    (ev : DragMoveEvent) (hroot : root.item.id ∉ s.draggingIds) :
    (∀ overId overRect overItem activeRect,
      ev.over = some (.node overId overRect) →
      (useSelectableItems root s.collapsed).find?
          (fun e => e.node.item.id == overId) = some overItem →
      ev.activeRect = some activeRect →
      ∀ tp, (resolveTarget s.collapsed overItem
          (((activeRect.top + activeRect.height / 2) - overRect.top) /
            overRect.height)).targetParent = some tp →
        (∃ d ∈ s.draggingIds, hasAncestor tp d = true) →
        handleDragMove root s ev = s) ∧
    (∀ hp pn, handleDragMoveOutcome root s.collapsed s.draggingIds ev =
        .set hp pn →
      hp.parentId ≠ none →
      ∃ tp, pn = some tp ∧ hp.parentId = some tp.item.id ∧
        ∀ d ∈ s.draggingIds, hasAncestor tp d = false) := by
  constructor
  · intro overId overRect overItem activeRect hov hfind hact tp htp hd
    have hany : s.draggingIds.any (fun d => hasAncestor tp d) = true := by
      rcases hd with ⟨d, hdm, hda⟩
      exact List.any_eq_true.mpr ⟨d, hdm, hda⟩
    have hout : handleDragMoveOutcome root s.collapsed s.draggingIds ev =
        .keep := by
      simp only [handleDragMoveOutcome, hov, hfind, hact, htp, hany]
      simp
    rw [handleDragMove, hout]
  · intro hp pn hset hpar
    cases hov : ev.over with
    | none =>
      simp only [handleDragMoveOutcome, hov] at hset
      cases hset
      exact absurd rfl hpar
    | some ot =>
      cases ot with
      | catchStart =>
        simp only [handleDragMoveOutcome, hov] at hset
        cases hset
        refine ⟨⟨root, [], 0⟩, rfl, rfl, ?_⟩
        intro d hdm
        have hne : root.item.id ≠ d := fun h => hroot (h ▸ hdm)
        simp [hasAncestor, hne]
      | catchEnd =>
        simp only [handleDragMoveOutcome, hov] at hset
        cases hset
        refine ⟨⟨root, [], 0⟩, rfl, rfl, ?_⟩
        intro d hdm
        have hne : root.item.id ≠ d := fun h => hroot (h ▸ hdm)
        simp [hasAncestor, hne]
      | node overId overRect =>
        cases hfind : (useSelectableItems root s.collapsed).find?
            (fun e => e.node.item.id == overId) with
        | none =>
          simp only [handleDragMoveOutcome, hov, hfind] at hset
          cases hset
        | some overItem =>
          cases hact : ev.activeRect with
          | none =>
            simp only [handleDragMoveOutcome, hov, hfind, hact] at hset
            cases hset
          | some activeRect =>
            simp only [handleDragMoveOutcome, hov, hfind, hact] at hset
            cases htp : (resolveTarget s.collapsed overItem
                (((activeRect.top + activeRect.height / 2) - overRect.top) /
                  overRect.height)).targetParent with
            | none =>
              rw [htp] at hset
              split at hset
              · cases hset
              · cases hset
                exact absurd rfl hpar
            | some tp =>
              rw [htp] at hset
              split at hset
              · cases hset
              next hinv =>
                cases hset
                refine ⟨tp, rfl, by simp, ?_⟩
                have hfalse : s.draggingIds.any
                    (fun d => hasAncestor tp d) = false := by
                  simpa using hinv
                intro d hdm
                simpa using List.any_eq_false.mp hfalse d hdm

/-- A sample state dragging the directory `A`. -/
def sampleDragAState : TreeState :=
  { selectedIds := ["A"], anchorId := some "A", collapsed := [],
    draggingIds := ["A"], hoveredParent := initialHoveredParent }

/-- A sample state dragging the leaf `A1`. -/
def sampleDragA1State : TreeState :=
  { selectedIds := ["A1"], anchorId := some "A1", collapsed := [],
    draggingIds := ["A1"], hoveredParent := initialHoveredParent }

/-- Witness for C3: dragging `A` over its own child `A1` leaves the state
untouched; dragging `A1` over the end catch zone commits a target whose
parent (the root) carries no dragged id on its ancestor-or-self chain. -/
theorem C3_cycle_validation_witness :
    (sampleRoot.item.id ∉ sampleDragAState.draggingIds ∧
      handleDragMove sampleRoot sampleDragAState
        ⟨some (.node "A1" ⟨0, 10⟩), some ⟨4, 2⟩⟩ = sampleDragAState) ∧
    (sampleRoot.item.id ∉ sampleDragA1State.draggingIds ∧
      ∃ tp, (some ⟨sampleRoot, [], 0⟩ : Option INode) = some tp ∧
        (some "root" : Option String) = some tp.item.id ∧
        ∀ d ∈ sampleDragA1State.draggingIds, hasAncestor tp d = false) := by
  constructor
  · refine ⟨by decide, ?_⟩
    exact (C3_cycle_validation sampleRoot sampleDragAState
        ⟨some (.node "A1" ⟨0, 10⟩), some ⟨4, 2⟩⟩ (by decide)).1
      "A1" ⟨0, 10⟩ ⟨⟨sampleA1, [sampleA, sampleRoot], 2⟩, 1⟩ ⟨4, 2⟩ rfl
      (by rfl) rfl ⟨sampleA, [sampleRoot], 1⟩
      (by
        norm_num [resolveTarget, INode.parent, getChildIndex, INode.item,
          RawTree.item, sampleA1, sampleA, lookupCollapsed]
        simp)
      ⟨"A", by decide, by rfl⟩
  · refine ⟨by decide, ?_⟩
    exact (C3_cycle_validation sampleRoot sampleDragA1State
        ⟨some .catchEnd, none⟩ (by decide)).2
      ⟨some "root", some 0, some 4, some 2, some .below⟩
      (some ⟨sampleRoot, [], 0⟩) (by rfl) (by decide)

/-! Helper lemmas for the drag-completion removal loop. -/

/-- With pairwise-distinct ids, splicing out the first match of an id equals
filtering that id out. -/
theorem eraseIdx_findIdx_eq_filter (nid : String) :
    ∀ (cs : List RawTree) (i : Nat),
      (cs.map (fun c => c.item.id)).Nodup →
      cs.findIdx? (fun c => c.item.id == nid) = some i →
      cs.eraseIdx i = cs.filter (fun c => !(c.item.id == nid)) := by
  intro cs
  induction cs with
  | nil =>
    intro i _ hfi
    simp at hfi
  | cons c t ih =>
    intro i hnd hfi
    rw [List.findIdx?_cons] at hfi
    simp only [List.map_cons, List.nodup_cons] at hnd
    by_cases hc : (c.item.id == nid) = true
    · rw [if_pos hc] at hfi
      cases hfi
      have hcid : c.item.id = nid := by simpa using hc
      rw [List.eraseIdx_cons_zero, List.filter_cons]
      simp only [hc, Bool.not_true, Bool.false_eq_true, if_false]
      symm
      rw [List.filter_eq_self]
      intro a ha
      have hane : a.item.id ≠ nid := by
        intro h
        refine hnd.1 ?_
        have hmem : a.item.id ∈ t.map (fun c => c.item.id) :=
          List.mem_map_of_mem _ ha
        rw [h, ← hcid] at hmem
        exact hmem
      simp [hane]
    · rw [if_neg hc] at hfi
      rw [List.findIdx?_succ] at hfi
      rcases Option.map_eq_some'.mp hfi with ⟨j, hj, rfl⟩
      rw [List.eraseIdx_cons_succ, List.filter_cons]
      have hcne : (c.item.id == nid) = false := eq_false_of_ne_true hc
      simp only [hcne, Bool.not_false, if_true]
      rw [ih j hnd.2 hj]

/-- On children with pairwise-distinct ids, the removal loop of
`handleDragEnd` returns the child list filtered of every dragged node's
id. -/
theorem removeAdjust_filter :
    ∀ (ns : List INode) (cs : List RawTree) (ins : Int),
      (cs.map (fun c => c.item.id)).Nodup →
      (removeAdjustLoop cs ins ns).1 =
        cs.filter (fun c => !(ns.any (fun n => n.item.id == c.item.id))) := by
  intro ns
  induction ns with
  | nil =>
    intro cs ins _
    simp [removeAdjustLoop]
  | cons n rest ih =>
    intro cs ins hnd
    rw [removeAdjustLoop]
    cases hfi : cs.findIdx? (fun c => c.item.id == n.item.id) with
    | none =>
      simp only [hfi]
      rw [ih cs ins hnd]
      refine List.filter_congr ?_
      intro c hc
      have hnone := List.findIdx?_eq_none_iff.mp hfi c hc
      have hne : c.item.id ≠ n.item.id := by simpa using hnone
      have hne' : n.item.id ≠ c.item.id := fun h => hne h.symm
      simp [List.any_cons, hne']
    | some i =>
      simp only [hfi]
      have hnd' : ((cs.eraseIdx i).map (fun c => c.item.id)).Nodup :=
        List.Nodup.sublist ((List.eraseIdx_sublist cs i).map _) hnd
      rw [ih _ _ hnd']
      rw [eraseIdx_findIdx_eq_filter n.item.id cs i hnd hfi]
      rw [List.filter_filter]
      refine List.filter_congr ?_
      intro c hc
      by_cases h : c.item.id = n.item.id
      · simp [List.any_cons, h]
      · have hb : (c.item.id == n.item.id) = false := by simpa using h
        have hb' : (n.item.id == c.item.id) = false := by
          simpa using fun hh => h hh.symm
        simp [List.any_cons, hb, hb', Bool.and_comm]

/-- The removal loop keeps the insertion index within `0..length` of the
running child list. -/
theorem removeAdjust_bounds :
    ∀ (ns : List INode) (cs : List RawTree) (ins : Int),
      0 ≤ ins → ins ≤ cs.length →
      0 ≤ (removeAdjustLoop cs ins ns).2 ∧
      (removeAdjustLoop cs ins ns).2 ≤ (removeAdjustLoop cs ins ns).1.length
    := by
  intro ns
  induction ns with
  | nil =>
    intro cs ins h0 hl
    simpa [removeAdjustLoop] using ⟨h0, hl⟩
  | cons n rest ih =>
    intro cs ins h0 hl
    rw [removeAdjustLoop]
    cases hfi : cs.findIdx? (fun c => c.item.id == n.item.id) with
    | none =>
      simp only [hfi]
      exact ih cs ins h0 hl
    | some i =>
      simp only [hfi]
      rcases List.findIdx?_eq_some_iff_getElem.mp hfi with ⟨hilt, -⟩
      have hlen : (cs.eraseIdx i).length = cs.length - 1 :=
        List.length_eraseIdx_of_lt hilt
      by_cases hins : (i : Int) < ins
      · have hrec := ih (cs.eraseIdx i) (ins - 1) (by omega)
          (by rw [hlen]; omega)
        simpa [hins] using hrec
      · have hrec := ih (cs.eraseIdx i) ins (by omega)
          (by rw [hlen]; omega)
        simpa [hins] using hrec

/-- Leaf `a` of the five-child completion examples. -/
def leafA : RawTree := .node ⟨"a", .file⟩ []

/-- Leaf `b`. -/
def leafB : RawTree := .node ⟨"b", .file⟩ []

/-- Leaf `c`. -/
def leafC : RawTree := .node ⟨"c", .file⟩ []

/-- Leaf `d`. -/
def leafD : RawTree := .node ⟨"d", .file⟩ []

/-- Leaf `e`. -/
def leafE : RawTree := .node ⟨"e", .file⟩ []

/-- A parent with the five children `a`..`e`. -/
def root5 : RawTree :=
  .node ⟨"root5", .directory⟩ [leafA, leafB, leafC, leafD, leafE]

/-- Completion example 1: dragging `c` (position 2) to raw child index 0 of
the same parent. -/
def dragCState : TreeState :=
  { selectedIds := ["c"], anchorId := some "c", collapsed := [],
    draggingIds := ["c"],
    hoveredParent := ⟨some "root5", some 0, some 0, some 0, some .above⟩ }

/-- Completion example 2: dragging `a` (position 0) to "after position 3",
raw child index 4, of the same parent. -/
def dragAState : TreeState :=
  { selectedIds := ["a"], anchorId := some "a", collapsed := [],
    draggingIds := ["a"],
    hoveredParent := ⟨some "root5", some 0, some 4, some 4, some .below⟩ }

/-- C4: for every completed drag with a valid target, the completion
resolver starts from a copy of the target parent's children and, for each
valid dragged item present, removes it — decrementing the insertion index
exactly when its position was strictly before the running index — so that,
on children with pairwise-distinct ids, the emitted `children` equal the
original child list minus the dragged items; and the index examples hold:
dragging `c` from position 2 to raw index 0 of its 5-item parent yields 4
children and `insertAt = 0`, while dragging `a` from position 0 to raw
index 4 ("after position 3") yields `insertAt = 3`, one less than the raw
target. -/
theorem C4_completion_adjustment :
    (∀ (ns : List INode) (cs : List RawTree) (ins : Int),
      (cs.map (fun c => c.item.id)).Nodup →
      (removeAdjustLoop cs ins ns).1 =
        cs.filter (fun c => !(ns.any (fun n => n.item.id == c.item.id)))) ∧
    dragEndPayload root5 dragCState ⟨true⟩ =
      some ⟨[leafC], root5, [leafA, leafB, leafD, leafE], 0⟩ ∧
    dragEndPayload root5 dragAState ⟨true⟩ =
      some ⟨[leafA], root5, [leafB, leafC, leafD, leafE], 3⟩ :=
  ⟨removeAdjust_filter, rfl, rfl⟩

/-- Witness for C4: removing the dragged `c` from the five distinct-id
children with raw insertion index 2 filters exactly `c` out. -/
theorem C4_completion_adjustment_witness :
    ([leafA, leafB, leafC, leafD, leafE].map (fun c => c.item.id)).Nodup ∧
    (removeAdjustLoop [leafA, leafB, leafC, leafD, leafE] 2
        [⟨leafC, [root5], 1⟩]).1 =
      [leafA, leafB, leafC, leafD, leafE].filter
        (fun c => !([(⟨leafC, [root5], 1⟩ : INode)].any
          (fun n => n.item.id == c.item.id))) :=
  ⟨by decide,
   C4_completion_adjustment.1 [⟨leafC, [root5], 1⟩]
     [leafA, leafB, leafC, leafD, leafE] 2 (by decide)⟩

/-- C10: every emitted completion payload has non-empty `items`, no item id
occurring among `children`, and `0 ≤ insertAt ≤ children.length` — under the
precondition that the hover-time `childIndex` is at most the target parent's
child count, together with the caller's id-uniqueness contract on the
parent's children. -/
theorem C10_payload_wellformed (root : RawTree) (s : TreeState)
    (ev : DragEndEvent) (payload : DragEndPayload)
    (hpay : dragEndPayload root s ev = some payload)
    (hbound : ∀ pid tp, s.hoveredParent.parentId = some pid →
      findINode root [] 0 pid = some tp →
      (tp.childList.map (fun c => c.item.id)).Nodup ∧
      ∀ ci, s.hoveredParent.childIndex = some ci →
        (ci : Int) ≤ tp.childList.length) :
    payload.items ≠ [] ∧
    (∀ it ∈ payload.items, ∀ ch ∈ payload.children,
      ch.item.id ≠ it.item.id) ∧
    0 ≤ payload.insertAt ∧
    payload.insertAt ≤ payload.children.length := by
  rw [dragEndPayload] at hpay
  cases hov : ev.overPresent with
  | false =>
    rw [hov] at hpay
    simp at hpay
  | true =>
    rw [hov] at hpay
    simp only [Bool.not_true, Bool.false_eq_true, if_false] at hpay
    cases hpid : s.hoveredParent.parentId with
    | none =>
      rw [hpid] at hpay
      simp only [] at hpay
      cases hpay
    | some pid =>
      rw [hpid] at hpay
      cases hci : s.hoveredParent.childIndex with
      | none =>
        rw [hci] at hpay
        simp only [] at hpay
        cases hpay
      | some ci =>
        rw [hci] at hpay
        simp only [] at hpay
        cases hpe : (pid == "") with
        | true =>
          rw [hpe] at hpay
          simp at hpay
        | false =>
          rw [hpe] at hpay
          simp only [Bool.false_eq_true, if_false] at hpay
          cases hfound : findINode root [] 0 pid with
          | none =>
            rw [hfound] at hpay
            simp only [] at hpay
            cases hpay
          | some tp =>
            rw [hfound] at hpay
            simp only [] at hpay
            have hnd := (hbound pid tp hpid hfound).1
            have hcile := (hbound pid tp hpid hfound).2 ci hci
            generalize hD : List.filterMap (fun id =>
              Option.map (fun e => e.node)
                (List.find? (fun e => e.node.item.id == id)
                  (useSelectableItems root s.collapsed)))
              s.draggingIds = D at hpay
            generalize hV : List.filter (fun n => !(n.item.id == tp.item.id)
              && !hasAncestor tp n.item.id) D = V at hpay
            cases hd : D.isEmpty with
            | true =>
              rw [hd] at hpay
              simp at hpay
            | false =>
              rw [hd] at hpay
              simp only [Bool.false_eq_true, if_false] at hpay
              cases hv : V.isEmpty with
              | true =>
                rw [hv] at hpay
                simp at hpay
              | false =>
                rw [hv] at hpay
                simp only [Bool.false_eq_true, if_false,
                  Option.some.injEq] at hpay
                subst hpay
                refine ⟨?_, ?_, ?_, ?_⟩
                · intro hnil
                  simp only [List.map_eq_nil_iff] at hnil
                  rw [hnil] at hv
                  simp at hv
                · intro it hit ch hch
                  simp only [removeAdjust_filter V tp.childList
                    (ci : Int) hnd] at hch
                  have hpred := (List.mem_filter.mp hch).2
                  rcases List.mem_map.mp hit with ⟨n, hn, rfl⟩
                  have hall : ∀ x ∈ V, ¬x.item.id = ch.item.id := by
                    simpa using hpred
                  have hne := hall n hn
                  exact fun h => hne (by simpa [INode.item] using h.symm)
                · exact (removeAdjust_bounds V tp.childList (ci : Int)
                    (by omega) hcile).1
                · exact (removeAdjust_bounds V tp.childList (ci : Int)
                    (by omega) hcile).2

/-- Witness for C10: the payload of completion example 1 (dragging `c` to
index 0 of `root5`) is well-formed. -/
theorem C10_payload_wellformed_witness :
    (⟨[leafC], root5, [leafA, leafB, leafD, leafE], 0⟩ :
        DragEndPayload).items ≠ [] ∧
    (∀ it ∈ (⟨[leafC], root5, [leafA, leafB, leafD, leafE], 0⟩ :
          DragEndPayload).items,
      ∀ ch ∈ (⟨[leafC], root5, [leafA, leafB, leafD, leafE], 0⟩ :
          DragEndPayload).children, ch.item.id ≠ it.item.id) ∧
    0 ≤ (⟨[leafC], root5, [leafA, leafB, leafD, leafE], 0⟩ :
        DragEndPayload).insertAt ∧
    (⟨[leafC], root5, [leafA, leafB, leafD, leafE], 0⟩ :
          DragEndPayload).insertAt ≤
      (⟨[leafC], root5, [leafA, leafB, leafD, leafE], 0⟩ :
          DragEndPayload).children.length :=
  C10_payload_wellformed root5 dragCState ⟨true⟩
    ⟨[leafC], root5, [leafA, leafB, leafD, leafE], 0⟩ rfl
    (by
      intro pid tp hp hf
      have hpid : pid = "root5" := by
        have h2 : (some "root5" : Option String) = some pid := hp
        simpa using h2.symm
      subst hpid
      have hf2 : (some (⟨root5, [], 0⟩ : INode) : Option INode) = some tp := by
        rw [show (some (⟨root5, [], 0⟩ : INode) : Option INode) =
          findINode root5 [] 0 "root5" from rfl, hf]
      cases hf2
      refine ⟨by decide, ?_⟩
      intro ci h
      have hci : ci = 0 := by
        have h2 : (some 0 : Option Nat) = some ci := h
        simpa using h2.symm
      subst hci
      decide)

end DndTree
